import Mathlib

/-!
Shallow embedding of the Person Registry (a FastAPI + SQLAlchemy CRUD
service, `src/main.py` and `src/models.py`).

The registry state is the persons table together with the database's
autoincrement counter.  The five operations are translated directly from
the handlers in `main.py`:

* `get_all_persons` — `db.query(PersonModel).all()`
* `get_person`      — filter by id, 404 when absent
* `create_person`   — duplicate-email check, then insert with the next id
* `update_person`   — 404 check, apply provided fields, duplicate-email
  check for the email field (excluding the person itself), commit
* `delete_person`   — 404 check, then remove the row

An operation that raises `HTTPException` never reaches `db.commit()`;
the session opened by `get_db` is closed in a `finally` block, which
rolls back any uncommitted mutation.  The embedding therefore returns
the untouched input state on every error path.

Modelled from the spec (the engine configuration `database.py` is not
part of the sources): the backing store assigns ids from a monotonic
counter starting at 1 that is never decremented (spec §3: "assigned
monotonically increasing starting at 1, never reused even after
deletion"), a plain scan returns rows in insertion order (spec §4.1:
list ordering "by ascending id"), and string comparison on `email` is
case-sensitive (spec §3: "case-sensitive as stored").
-/

/-- A row of the `persons` table (`src/models.py`, `PersonModel`). -/
structure Person where
  id : Nat
  name : String
  age : Int
  email : String
deriving DecidableEq, Repr

/-- Input of `create_person` (`PersonCreate` in `src/main.py`). -/
structure PersonCreate where
  name : String
  age : Int
  email : String
deriving DecidableEq, Repr

/-- Input of `update_person` (`PersonUpdate` in `src/main.py`):
every field optional, `none` meaning "not provided". -/
structure PersonUpdate where
  name : Option String := none
  age : Option Int := none
  email : Option String := none
deriving DecidableEq, Repr

/-- The persons table plus the autoincrement counter of the backing
store. -/
structure RegistryState where
  nextId : Nat
  persons : List Person
deriving DecidableEq, Repr

/-- A fresh store: empty table, counter at 1. -/
def emptyRegistry : RegistryState := ⟨1, []⟩

/-- The two error kinds the handlers raise (`HTTPException` 404
"Person not found" and 400 "Email already registered"). -/
inductive ApiError where
  | notFound
  | duplicateEmail
deriving DecidableEq, Repr

/-- `GET /persons`: `db.query(PersonModel).all()`. -/
def get_all_persons (s : RegistryState) : List Person :=
  s.persons

/-- `GET /persons/{person_id}`: first row with the given id, 404 when
there is none. -/
def get_person (person_id : Nat) (s : RegistryState) : Except ApiError Person :=
  match s.persons.find? (fun p => p.id == person_id) with
  | none => .error .notFound
  | some p => .ok p

/-- `POST /persons`: reject when any stored row has the same email,
otherwise insert a row with the counter's id and bump the counter. -/
def create_person (person_data : PersonCreate) (s : RegistryState) :
    Except ApiError Person × RegistryState :=
  match s.persons.find? (fun p => p.email == person_data.email) with
  | some _ => (.error .duplicateEmail, s)
  | none =>
    let db_person : Person :=
      ⟨s.nextId, person_data.name, person_data.age, person_data.email⟩
    (.ok db_person, ⟨s.nextId + 1, s.persons ++ [db_person]⟩)

/-- Committing the in-place mutation of the row with the given id. -/
def commitRow (person_id : Nat) (p : Person) (s : RegistryState) :
    RegistryState :=
  ⟨s.nextId, s.persons.map (fun q => if q.id == person_id then p else q)⟩

/-- The `if person_data.name is not None:` assignment in `update_person`. -/
def applyNameField (dn : Option String) (p : Person) : Person :=
  match dn with
  | some n => { p with name := n }
  | none => p

/-- The `if person_data.age is not None:` assignment in `update_person`. -/
def applyAgeField (da : Option Int) (p : Person) : Person :=
  match da with
  | some a => { p with age := a }
  | none => p

/-- `PUT /persons/{person_id}`: 404 when the id is absent; otherwise
apply the provided name and age, then — if an email is provided —
reject when another row (different id) already has that email, else
apply it; commit. The error paths return the input state: the raised
exception skips `db.commit()` and the session rolls back on close. -/
def update_person (person_id : Nat) (person_data : PersonUpdate)
    (s : RegistryState) : Except ApiError Person × RegistryState :=
  match s.persons.find? (fun p => p.id == person_id) with
  | none => (.error .notFound, s)
  | some person =>
    let person1 := applyNameField person_data.name person
    let person2 := applyAgeField person_data.age person1
    match person_data.email with
    | some e =>
      if (s.persons.filter (fun q => q.email == e && q.id != person_id)).isEmpty
      then
        let person3 := { person2 with email := e }
        (.ok person3, commitRow person_id person3 s)
      else (.error .duplicateEmail, s)
    | none => (.ok person2, commitRow person_id person2 s)

/-- `DELETE /persons/{person_id}`: 404 when the id is absent, otherwise
remove the row. -/
def delete_person (person_id : Nat) (s : RegistryState) :
    Except ApiError Unit × RegistryState :=
  match s.persons.find? (fun p => p.id == person_id) with
  | none => (.error .notFound, s)
  | some _ => (.ok (), ⟨s.nextId, s.persons.filter (fun p => p.id != person_id)⟩)

/-- One mutating request. -/
inductive Op where
  | create (d : PersonCreate)
  | update (i : Nat) (d : PersonUpdate)
  | delete (i : Nat)
deriving DecidableEq, Repr

/-- The state after serving one request (reads do not change state). -/
def applyOp (s : RegistryState) : Op → RegistryState
  | .create d => (create_person d s).2
  | .update i d => (update_person i d s).2
  | .delete i => (delete_person i s).2

/-- The state after serving a sequence of requests. -/
def runOps (s : RegistryState) : List Op → RegistryState
  | [] => s
  | o :: os => runOps (applyOp s o) os

/-- States the service can be in: produced from a fresh store by some
request sequence. -/
def Reachable (s : RegistryState) : Prop :=
  ∃ ops : List Op, runOps emptyRegistry ops = s

/-- The ids handed out by the successful creates of a request sequence,
in order. -/
def assignedIds (s : RegistryState) : List Op → List Nat
  | [] => []
  | .create d :: os =>
    match create_person d s with
    | (.ok p, s') => p.id :: assignedIds s' os
    | (.error _, s') => assignedIds s' os
  | o :: os => assignedIds (applyOp s o) os

/-- The registry invariant: every stored id is below the counter, ids
are strictly increasing along the table, and emails are pairwise
distinct. -/
def RegInv (s : RegistryState) : Prop :=
  (∀ p ∈ s.persons, p.id < s.nextId) ∧
  s.persons.Pairwise (fun p q => p.id < q.id) ∧
  s.persons.Pairwise (fun p q => p.email ≠ q.email)

deriving instance DecidableEq for Except

example :
    (create_person ⟨"John Doe", 30, "john@x.com"⟩ emptyRegistry).1 =
      .ok ⟨1, "John Doe", 30, "john@x.com"⟩ := by decide

example :
    assignedIds emptyRegistry
      [Op.create ⟨"A", 1, "a@x"⟩, Op.create ⟨"B", 2, "b@x"⟩,
       Op.delete 2, Op.create ⟨"C", 3, "c@x"⟩] = [1, 2, 3] := by decide

/-! ### The registry invariant is preserved by every operation -/

theorem regInv_empty : RegInv emptyRegistry := by
  simp [RegInv, emptyRegistry]

theorem mem_id_injective {l : List Person}
    (hl : l.Pairwise (fun p q => p.id < q.id)) :
    ∀ {a b : Person}, a ∈ l → b ∈ l → a.id = b.id → a = b := by
  induction l with
  | nil => intro a b ha _ _; simp at ha
  | cons x xs ih =>
    intro a b ha hb hab
    rcases List.pairwise_cons.mp hl with ⟨hx, hxs⟩
    rcases List.mem_cons.mp ha with rfl | ha'
    · rcases List.mem_cons.mp hb with rfl | hb'
      · rfl
      · exact absurd hab (Nat.ne_of_lt (hx _ hb'))
    · rcases List.mem_cons.mp hb with rfl | hb'
      · exact absurd hab.symm (Nat.ne_of_lt (hx _ ha'))
      · exact ih hxs ha' hb' hab

theorem regInv_create (d : PersonCreate) {s : RegistryState}
    (h : RegInv s) : RegInv (create_person d s).2 := by
  obtain ⟨hlt, hid, hem⟩ := h
  simp only [create_person]
  split
  · exact ⟨hlt, hid, hem⟩
  · rename_i hf
    have hne : ∀ q ∈ s.persons, q.email ≠ d.email := by
      intro q hq
      have := List.find?_eq_none.mp hf q hq
      simpa using this
    refine ⟨?_, ?_, ?_⟩
    · intro p hp
      simp only [List.mem_append, List.mem_singleton] at hp
      rcases hp with hp | rfl
      · exact Nat.lt_trans (hlt p hp) (Nat.lt_succ_self _)
      · exact Nat.lt_succ_self _
    · rw [List.pairwise_append]
      refine ⟨hid, List.pairwise_singleton _ _, ?_⟩
      intro a ha b hb
      simp only [List.mem_singleton] at hb
      subst hb
      exact hlt a ha
    · rw [List.pairwise_append]
      refine ⟨hem, List.pairwise_singleton _ _, ?_⟩
      intro a ha b hb
      simp only [List.mem_singleton] at hb
      subst hb
      exact hne a ha

theorem regInv_commitRow {s : RegistryState} {i : Nat} {p : Person}
    (h : RegInv s) (hpid : p.id = i)
    (hpe : ∀ q ∈ s.persons, q.id ≠ i → q.email ≠ p.email) :
    RegInv (commitRow i p s) := by
  obtain ⟨hlt, hid, hem⟩ := h
  have hfid : ∀ q : Person,
      ((fun q => if q.id == i then p else q) q).id = q.id := by
    intro q
    by_cases hq : q.id = i
    · simp [hq, hpid]
    · simp [hq]
  refine ⟨?_, ?_, ?_⟩
  · intro q hq
    simp only [commitRow] at hq
    rcases List.mem_map.mp hq with ⟨r, hr, rfl⟩
    rw [hfid]
    exact hlt r hr
  · simp only [commitRow]
    rw [List.pairwise_map]
    refine hid.imp ?_
    intro a b hab
    rw [hfid, hfid]
    exact hab
  · simp only [commitRow]
    rw [List.pairwise_map]
    refine (hid.and hem).imp_of_mem ?_
    intro a b ha hb hab
    obtain ⟨hablt, habem⟩ := hab
    by_cases hai : a.id = i <;> by_cases hbi : b.id = i
    · exact absurd (hai.trans hbi.symm) (Nat.ne_of_lt hablt)
    · simp only [hai, hbi, beq_self_eq_true, if_true, beq_iff_eq, if_neg hbi]
      exact fun hc => (hpe b hb hbi) hc.symm
    · simp only [hai, hbi, beq_iff_eq, if_neg hai, beq_self_eq_true, if_true]
      exact hpe a ha hai
    · simp only [beq_iff_eq, if_neg hai, if_neg hbi]
      exact habem

theorem regInv_delete (i : Nat) {s : RegistryState}
    (h : RegInv s) : RegInv (delete_person i s).2 := by
  obtain ⟨hlt, hid, hem⟩ := h
  simp only [delete_person]
  split
  · exact ⟨hlt, hid, hem⟩
  · refine ⟨?_, hid.filter _, hem.filter _⟩
    intro p hp
    exact hlt p (List.mem_of_mem_filter hp)


theorem applyNameField_id (dn : Option String) (p : Person) :
    (applyNameField dn p).id = p.id := by
  cases dn <;> rfl

theorem applyNameField_age (dn : Option String) (p : Person) :
    (applyNameField dn p).age = p.age := by
  cases dn <;> rfl

theorem applyNameField_email (dn : Option String) (p : Person) :
    (applyNameField dn p).email = p.email := by
  cases dn <;> rfl

theorem applyAgeField_id (da : Option Int) (p : Person) :
    (applyAgeField da p).id = p.id := by
  cases da <;> rfl

theorem applyAgeField_name (da : Option Int) (p : Person) :
    (applyAgeField da p).name = p.name := by
  cases da <;> rfl

theorem applyAgeField_email (da : Option Int) (p : Person) :
    (applyAgeField da p).email = p.email := by
  cases da <;> rfl

theorem regInv_update (i : Nat) (d : PersonUpdate) {s : RegistryState}
    (h : RegInv s) : RegInv (update_person i d s).2 := by
  simp only [update_person]
  split
  · exact h
  · rename_i person hfind
    have hpid : person.id = i := by simpa using List.find?_some hfind
    have hmem : person ∈ s.persons := List.mem_of_find?_eq_some hfind
    have hsym : Symmetric fun p q : Person => p.email ≠ q.email :=
      fun _ _ hpq => hpq.symm
    have hid2 : (applyAgeField d.age (applyNameField d.name person)).id = i := by
      rw [applyAgeField_id, applyNameField_id, hpid]
    split
    · rename_i e heq
      split
      · rename_i hflt
        have hne : ∀ q ∈ s.persons, q.id ≠ i → q.email ≠ e := by
          intro q hq hqi hqe
          have hq' := List.filter_eq_nil_iff.mp (List.isEmpty_iff.mp hflt) q hq
          simp only [Bool.and_eq_true, beq_iff_eq, bne_iff_ne, ne_eq, not_and,
            Decidable.not_not] at hq'
          exact hqi (hq' hqe)
        refine regInv_commitRow h hid2 ?_
        intro q hq hqi
        simpa using hne q hq hqi
      · exact h
    · have hemdist : ∀ q ∈ s.persons, q.id ≠ i →
          q.email ≠ (applyAgeField d.age (applyNameField d.name person)).email := by
        intro q hq hqi
        rw [applyAgeField_email, applyNameField_email]
        refine h.2.2.forall hsym hq hmem ?_
        intro hqp
        exact hqi (hqp ▸ hpid)
      exact regInv_commitRow h hid2 hemdist

theorem regInv_applyOp {s : RegistryState} (h : RegInv s) (o : Op) :
    RegInv (applyOp s o) := by
  cases o with
  | create d => exact regInv_create d h
  | update i d => exact regInv_update i d h
  | delete i => exact regInv_delete i h

theorem regInv_runOps {s : RegistryState} (h : RegInv s) (ops : List Op) :
    RegInv (runOps s ops) := by
  induction ops generalizing s with
  | nil => exact h
  | cons o os ih => exact ih (regInv_applyOp h o)

theorem reachable_regInv {s : RegistryState} (h : Reachable s) : RegInv s := by
  obtain ⟨ops, rfl⟩ := h
  exact regInv_runOps regInv_empty ops

/-! ### The autoincrement counter never decreases -/

theorem update_person_nextId (i : Nat) (d : PersonUpdate) (s : RegistryState) :
    (update_person i d s).2.nextId = s.nextId := by
  simp only [update_person]
  split
  · rfl
  · split
    · split <;> rfl
    · rfl

theorem delete_person_nextId (i : Nat) (s : RegistryState) :
    (delete_person i s).2.nextId = s.nextId := by
  simp only [delete_person]
  split <;> rfl

theorem applyOp_nextId_le (s : RegistryState) (o : Op) :
    s.nextId ≤ (applyOp s o).nextId := by
  cases o with
  | create d =>
    simp only [applyOp, create_person]
    split
    · exact Nat.le_refl _
    · exact Nat.le_succ _
  | update i d =>
    simp only [applyOp]
    rw [update_person_nextId]
  | delete i =>
    simp only [applyOp]
    rw [delete_person_nextId]

/-! ### Inversion of `create_person` -/

theorem create_person_ok {d : PersonCreate} {s : RegistryState} {p : Person}
    {s' : RegistryState} (h : create_person d s = (.ok p, s')) :
    p = ⟨s.nextId, d.name, d.age, d.email⟩ ∧
      s' = ⟨s.nextId + 1, s.persons ++ [p]⟩ ∧
      ∀ q ∈ s.persons, q.email ≠ d.email := by
  revert h
  simp only [create_person]
  split
  · intro h
    injection h with h1 h2
    injection h1
  · rename_i hf
    intro h
    injection h with h1 h2
    injection h1 with h1
    refine ⟨h1.symm, ?_, ?_⟩
    · rw [← h2, ← h1]
    · intro q hq
      have := List.find?_eq_none.mp hf q hq
      simpa using this

theorem create_person_error {d : PersonCreate} {s : RegistryState}
    {e : ApiError} {s' : RegistryState}
    (h : create_person d s = (.error e, s')) :
    e = .duplicateEmail ∧ s' = s ∧ ∃ q ∈ s.persons, q.email = d.email := by
  revert h
  simp only [create_person]
  split
  · rename_i q hf
    intro h
    injection h with h1 h2
    injection h1 with h1
    refine ⟨h1.symm, h2.symm, q, List.mem_of_find?_eq_some hf, ?_⟩
    simpa using List.find?_some hf
  · intro h
    injection h with h1 h2
    injection h1

/-! ### Assigned ids are strictly increasing -/

theorem assignedIds_lower (ops : List Op) :
    ∀ s : RegistryState, ∀ n ∈ assignedIds s ops, s.nextId ≤ n := by
  induction ops with
  | nil =>
    intro s n hn
    simp [assignedIds] at hn
  | cons o os ih =>
    intro s n hn
    cases o with
    | create d =>
      simp only [assignedIds] at hn
      rcases hc : create_person d s with ⟨r, s2⟩
      rw [hc] at hn
      cases r with
      | ok p =>
        simp only [List.mem_cons] at hn
        obtain ⟨hp, hs2, -⟩ := create_person_ok hc
        rcases hn with rfl | hn
        · rw [hp]
        · have h1 := ih s2 n hn
          rw [hs2] at h1
          exact Nat.le_of_succ_le h1
      | error e =>
        obtain ⟨-, rfl, -⟩ := create_person_error hc
        exact ih _ n hn
    | update i d =>
      simp only [assignedIds] at hn
      have h1 := ih _ n hn
      rw [applyOp, update_person_nextId] at h1
      exact h1
    | delete i =>
      simp only [assignedIds] at hn
      have h1 := ih _ n hn
      rw [applyOp, delete_person_nextId] at h1
      exact h1

theorem assignedIds_sorted (ops : List Op) :
    ∀ s : RegistryState, List.Sorted (· < ·) (assignedIds s ops) := by
  induction ops with
  | nil =>
    intro s
    simp [assignedIds]
  | cons o os ih =>
    intro s
    cases o with
    | create d =>
      simp only [assignedIds]
      rcases hc : create_person d s with ⟨r, s2⟩
      cases r with
      | ok p =>
        obtain ⟨hp, hs2, -⟩ := create_person_ok hc
        refine List.sorted_cons.mpr ⟨?_, ih s2⟩
        intro n hn
        have h1 := assignedIds_lower os s2 n hn
        rw [hs2] at h1
        rw [hp]
        exact Nat.lt_of_succ_le h1
      | error e =>
        exact ih s2
    | update i d =>
      simp only [assignedIds]
      exact ih _
    | delete i =>
      simp only [assignedIds]
      exact ih _

theorem assignedIds_head (ops : List Op) :
    ∀ s n, (assignedIds s ops).head? = some n → n = s.nextId := by
  induction ops with
  | nil =>
    intro s n hn
    simp [assignedIds] at hn
  | cons o os ih =>
    intro s n hn
    cases o with
    | create d =>
      simp only [assignedIds] at hn
      rcases hc : create_person d s with ⟨r, s2⟩
      rw [hc] at hn
      cases r with
      | ok p =>
        simp only [List.head?_cons, Option.some.injEq] at hn
        obtain ⟨hp, -, -⟩ := create_person_ok hc
        rw [← hn, hp]
      | error e =>
        obtain ⟨-, rfl, -⟩ := create_person_error hc
        exact ih _ n hn
    | update i d =>
      simp only [assignedIds] at hn
      have h1 := ih _ n hn
      rw [applyOp, update_person_nextId] at h1
      exact h1
    | delete i =>
      simp only [assignedIds] at hn
      have h1 := ih _ n hn
      rw [applyOp, delete_person_nextId] at h1
      exact h1

theorem mem_email_injective {l : List Person}
    (hl : l.Pairwise (fun p q => p.email ≠ q.email)) :
    ∀ {a b : Person}, a ∈ l → b ∈ l → a.email = b.email → a = b := by
  intro a b ha hb hab
  by_contra hne
  exact (hl.forall (fun _ _ h => h.symm) ha hb hne) hab

/-! ### The claims -/

/-- C4: a create whose email equals a stored person's email fails with
`DuplicateEmail`, stores nothing, and leaves the whole state — table
and counter — unchanged. -/
theorem c4_create_duplicate_email_rejected (s : RegistryState)
    (d : PersonCreate) (h : ∃ q ∈ s.persons, q.email = d.email) :
    create_person d s = (.error .duplicateEmail, s) := by
  obtain ⟨q, hq, hqe⟩ := h
  simp only [create_person]
  split
  · rfl
  · rename_i hf
    exact absurd hqe (by simpa using List.find?_eq_none.mp hf q hq)

theorem c4_witness :
    create_person ⟨"Jane", 28, "john@x.com"⟩
        ⟨2, [⟨1, "John Doe", 30, "john@x.com"⟩]⟩ =
      (.error .duplicateEmail, ⟨2, [⟨1, "John Doe", 30, "john@x.com"⟩]⟩) :=
  c4_create_duplicate_email_rejected _ _
    ⟨⟨1, "John Doe", 30, "john@x.com"⟩, by decide, rfl⟩

/-- C5: on an id held by no stored person, `get`, `update` (whatever
the fields, a duplicate email included) and `delete` all fail with
`NotFound` — never any other error kind — and leave the state
unchanged. -/
theorem c5_missing_id_not_found (s : RegistryState) (i : Nat)
    (d : PersonUpdate) (h : ∀ p ∈ s.persons, p.id ≠ i) :
    get_person i s = .error .notFound ∧
    update_person i d s = (.error .notFound, s) ∧
    delete_person i s = (.error .notFound, s) := by
  have hf : s.persons.find? (fun p => p.id == i) = none := by
    rw [List.find?_eq_none]
    intro p hp
    simpa using h p hp
  refine ⟨?_, ?_, ?_⟩
  · simp only [get_person, hf]
  · simp only [update_person, hf]
  · simp only [delete_person, hf]

theorem c5_witness :
    get_person 7 ⟨2, [⟨1, "John Doe", 30, "john@x.com"⟩]⟩ =
      .error .notFound ∧
    update_person 7 ⟨some "X", some 1, some "john@x.com"⟩
        ⟨2, [⟨1, "John Doe", 30, "john@x.com"⟩]⟩ =
      (.error .notFound, ⟨2, [⟨1, "John Doe", 30, "john@x.com"⟩]⟩) ∧
    delete_person 7 ⟨2, [⟨1, "John Doe", 30, "john@x.com"⟩]⟩ =
      (.error .notFound, ⟨2, [⟨1, "John Doe", 30, "john@x.com"⟩]⟩) :=
  c5_missing_id_not_found _ 7 _ (by decide)

/-- C7: an update providing no fields succeeds and returns the stored
person with every field as it was, leaving the state unchanged. -/
theorem c7_empty_update_identity (s : RegistryState) (i : Nat) (p : Person)
    (hinv : RegInv s)
    (hf : s.persons.find? (fun q => q.id == i) = some p) :
    update_person i ⟨none, none, none⟩ s = (.ok p, s) := by
  have hpi : p.id = i := by simpa using List.find?_some hf
  have hmem := List.mem_of_find?_eq_some hf
  have hmap : s.persons.map (fun q => if q.id == i then p else q) = s.persons := by
    conv_rhs => rw [← List.map_id s.persons]
    refine List.map_congr_left ?_
    intro q hq
    by_cases hqi : q.id = i
    · simp only [hqi, beq_self_eq_true, if_true, id]
      exact (mem_id_injective hinv.2.1 hq hmem (by rw [hqi, hpi])).symm
    · simp [hqi]
  simp only [update_person, hf, applyNameField, applyAgeField, commitRow, hmap]

/-- C9: whenever a create, update or delete fails — with either error
kind — the state (table and counter) after the call equals the state
before it. -/
theorem c9_failure_preserves_state (s : RegistryState) :
    (∀ d e, (create_person d s).1 = .error e → (create_person d s).2 = s) ∧
    (∀ i d e, (update_person i d s).1 = .error e →
      (update_person i d s).2 = s) ∧
    (∀ i e, (delete_person i s).1 = .error e → (delete_person i s).2 = s) := by
  refine ⟨?_, ?_, ?_⟩
  · intro d e h
    simp only [create_person] at h ⊢
    cases hf : s.persons.find? (fun p => p.email == d.email) with
    | none =>
      simp only [hf] at h
      exact absurd h (by simp)
    | some q => simp only [hf]
  · intro i d e h
    simp only [update_person] at h ⊢
    cases hf : s.persons.find? (fun p => p.id == i) with
    | none => simp only [hf]
    | some person =>
      simp only [hf] at h ⊢
      cases he : d.email with
      | none =>
        simp only [he] at h
        exact absurd h (by simp)
      | some e2 =>
        simp only [he] at h ⊢
        by_cases hc :
            (s.persons.filter fun q => q.email == e2 && q.id != i).isEmpty = true
        · rw [if_pos hc] at h
          simp at h
        · rw [if_neg hc]
  · intro i e h
    simp only [delete_person] at h ⊢
    cases hf : s.persons.find? (fun p => p.id == i) with
    | none => simp only [hf]
    | some q =>
      simp only [hf] at h
      exact absurd h (by simp)

theorem c7_witness :
    update_person 1 ⟨none, none, none⟩
        (runOps emptyRegistry [Op.create ⟨"John Doe", 30, "john@x.com"⟩]) =
      (.ok ⟨1, "John Doe", 30, "john@x.com"⟩,
        runOps emptyRegistry [Op.create ⟨"John Doe", 30, "john@x.com"⟩]) :=
  c7_empty_update_identity _ 1 _
    (regInv_runOps regInv_empty [Op.create ⟨"John Doe", 30, "john@x.com"⟩])
    (by decide)

/-- C2: an update that provides an email differing from the person's
current one but equal to another stored person's email fails with
`DuplicateEmail` and changes nothing — not even name or age supplied in
the same request; an update whose provided email equals the person's
own current email succeeds. -/
theorem c2_update_email_check_all_or_nothing (s : RegistryState) (i : Nat)
    (p : Person) (d : PersonUpdate) (hinv : RegInv s)
    (hf : s.persons.find? (fun q => q.id == i) = some p) :
    (∀ e, d.email = some e → e ≠ p.email →
      (∃ q ∈ s.persons, q.id ≠ i ∧ q.email = e) →
      update_person i d s = (.error .duplicateEmail, s)) ∧
    (d.email = some p.email →
      ∃ r s', update_person i d s = (.ok r, s')) := by
  have hpi : p.id = i := by simpa using List.find?_some hf
  have hmem := List.mem_of_find?_eq_some hf
  constructor
  · intro e he hne hex
    obtain ⟨q, hq, hqi, hqe⟩ := hex
    simp only [update_person, hf, he]
    have hcond :
        ¬((s.persons.filter fun r => r.email == e && r.id != i).isEmpty = true) := by
      intro hempty
      have h2 := List.filter_eq_nil_iff.mp (List.isEmpty_iff.mp hempty) q hq
      simp only [Bool.and_eq_true, beq_iff_eq, bne_iff_ne, ne_eq, not_and,
        Decidable.not_not] at h2
      exact hqi (h2 hqe)
    rw [if_neg hcond]
  · intro he
    simp only [update_person, hf, he]
    have hcond :
        (s.persons.filter fun r => r.email == p.email && r.id != i).isEmpty = true := by
      rw [List.isEmpty_iff, List.filter_eq_nil_iff]
      intro a ha
      simp only [Bool.and_eq_true, beq_iff_eq, bne_iff_ne, ne_eq, not_and,
        Decidable.not_not]
      intro hae
      rw [mem_email_injective hinv.2.2 ha hmem hae]
      exact hpi
    rw [if_pos hcond]
    exact ⟨_, _, rfl⟩

theorem c2_witness :
    update_person 1 ⟨some "Johnny", some 99, some "jane@x.com"⟩
        ⟨3, [⟨1, "John Doe", 30, "john@x.com"⟩, ⟨2, "Jane", 28, "jane@x.com"⟩]⟩ =
      (.error .duplicateEmail,
        ⟨3, [⟨1, "John Doe", 30, "john@x.com"⟩, ⟨2, "Jane", 28, "jane@x.com"⟩]⟩) ∧
    ∃ r s', update_person 1 ⟨none, none, some "john@x.com"⟩
        ⟨3, [⟨1, "John Doe", 30, "john@x.com"⟩, ⟨2, "Jane", 28, "jane@x.com"⟩]⟩ =
      (.ok r, s') := by
  have hinv : RegInv ⟨3, [⟨1, "John Doe", 30, "john@x.com"⟩,
      ⟨2, "Jane", 28, "jane@x.com"⟩]⟩ :=
    regInv_runOps regInv_empty
      [Op.create ⟨"John Doe", 30, "john@x.com"⟩, Op.create ⟨"Jane", 28, "jane@x.com"⟩]
  constructor
  · exact (c2_update_email_check_all_or_nothing _ 1
        ⟨1, "John Doe", 30, "john@x.com"⟩ _ hinv (by decide)).1
      "jane@x.com" rfl (by decide)
      ⟨⟨2, "Jane", 28, "jane@x.com"⟩, by decide, by decide, rfl⟩
  · exact (c2_update_email_check_all_or_nothing _ 1
        ⟨1, "John Doe", 30, "john@x.com"⟩ _ hinv (by decide)).2 rfl

/-- C3: `list_all` returns exactly the stored persons, in ascending id
order (a deterministic order), with no error and no state change. -/
theorem c3_list_all_ascending (s : RegistryState) (h : Reachable s) :
    get_all_persons s = s.persons ∧
    List.Sorted (· < ·) ((get_all_persons s).map Person.id) := by
  refine ⟨rfl, ?_⟩
  have hinv := reachable_regInv h
  exact List.pairwise_map.mpr hinv.2.1

theorem c3_witness :
    get_all_persons (runOps emptyRegistry
        [Op.create ⟨"Ann", 30, "ann@x.com"⟩, Op.create ⟨"Bob", 28, "bob@x.com"⟩]) =
      (runOps emptyRegistry
        [Op.create ⟨"Ann", 30, "ann@x.com"⟩, Op.create ⟨"Bob", 28, "bob@x.com"⟩]).persons ∧
    List.Sorted (· < ·)
      ((get_all_persons (runOps emptyRegistry
        [Op.create ⟨"Ann", 30, "ann@x.com"⟩,
         Op.create ⟨"Bob", 28, "bob@x.com"⟩])).map Person.id) :=
  c3_list_all_ascending _
    ⟨[Op.create ⟨"Ann", 30, "ann@x.com"⟩, Op.create ⟨"Bob", 28, "bob@x.com"⟩], rfl⟩

/-- C6: in every reachable state the stored emails are pairwise
distinct under exact (case-sensitive) string comparison, and a create
whose email differs as a string from every stored email — even one
differing only in letter case — succeeds. -/
theorem c6_email_unique_case_sensitive (s : RegistryState) (h : Reachable s) :
    s.persons.Pairwise (fun p q => p.email ≠ q.email) ∧
    (∀ d : PersonCreate, (∀ q ∈ s.persons, q.email ≠ d.email) →
      ∃ p, (create_person d s).1 = .ok p) := by
  have hinv := reachable_regInv h
  refine ⟨hinv.2.2, ?_⟩
  intro d hd
  simp only [create_person]
  cases hf : s.persons.find? (fun p => p.email == d.email) with
  | some q =>
    exact absurd (by simpa using List.find?_some hf)
      (hd q (List.mem_of_find?_eq_some hf))
  | none => exact ⟨_, rfl⟩

theorem c6_witness :
    (runOps emptyRegistry [Op.create ⟨"Ann", 30, "Ann@X.com"⟩]).persons.Pairwise
        (fun p q => p.email ≠ q.email) ∧
    ∃ p, (create_person ⟨"Ann Two", 31, "ann@x.com"⟩
        (runOps emptyRegistry [Op.create ⟨"Ann", 30, "Ann@X.com"⟩])).1 = .ok p := by
  have h := c6_email_unique_case_sensitive _
    ⟨[Op.create ⟨"Ann", 30, "Ann@X.com"⟩], rfl⟩
  exact ⟨h.1, h.2 ⟨"Ann Two", 31, "ann@x.com"⟩ (by decide)⟩

/-- C8: the concrete scenario of spec §8: the first create returns id 1,
a second create with the same email fails with DuplicateEmail leaving
the state unchanged, updating the age to 31 returns the person with
only the age changed, delete succeeds, and a final get fails with
NotFound. -/
theorem c8_concrete_scenario :
    create_person ⟨"John Doe", 30, "john@x.com"⟩ emptyRegistry =
      (.ok ⟨1, "John Doe", 30, "john@x.com"⟩,
        ⟨2, [⟨1, "John Doe", 30, "john@x.com"⟩]⟩) ∧
    create_person ⟨"Jane", 28, "john@x.com"⟩
        ⟨2, [⟨1, "John Doe", 30, "john@x.com"⟩]⟩ =
      (.error .duplicateEmail, ⟨2, [⟨1, "John Doe", 30, "john@x.com"⟩]⟩) ∧
    update_person 1 ⟨none, some 31, none⟩
        ⟨2, [⟨1, "John Doe", 30, "john@x.com"⟩]⟩ =
      (.ok ⟨1, "John Doe", 31, "john@x.com"⟩,
        ⟨2, [⟨1, "John Doe", 31, "john@x.com"⟩]⟩) ∧
    (delete_person 1 ⟨2, [⟨1, "John Doe", 31, "john@x.com"⟩]⟩).1 = .ok () ∧
    get_person 1 (delete_person 1 ⟨2, [⟨1, "John Doe", 31, "john@x.com"⟩]⟩).2 =
      .error .notFound := by
  refine ⟨by decide, by decide, by decide, by decide, by decide⟩

/-- C1: from the empty registry, every id a successful create assigns is
strictly greater than all previously assigned ids, the first assigned
id is 1, and once a delete succeeds on an id no later create in any
continuation ever assigns that id again. -/
theorem c1_ids_increasing_never_reused (ops1 : List Op) :
    List.Sorted (· < ·) (assignedIds emptyRegistry ops1) ∧
    (∀ n, (assignedIds emptyRegistry ops1).head? = some n → n = 1) ∧
    (∀ i (ops2 : List Op),
      (delete_person i (runOps emptyRegistry ops1)).1 = .ok () →
      i ∉ assignedIds (delete_person i (runOps emptyRegistry ops1)).2 ops2) := by
  refine ⟨assignedIds_sorted ops1 _, ?_, ?_⟩
  · intro n hn
    exact assignedIds_head ops1 _ n hn
  · intro i ops2 hdel hmem
    have hinv : RegInv (runOps emptyRegistry ops1) :=
      regInv_runOps regInv_empty ops1
    have hfound : ∃ p ∈ (runOps emptyRegistry ops1).persons, p.id = i := by
      revert hdel
      simp only [delete_person]
      cases hf : (runOps emptyRegistry ops1).persons.find? (fun p => p.id == i) with
      | none =>
        intro hdel
        exact absurd hdel (by simp)
      | some p =>
        intro _
        exact ⟨p, List.mem_of_find?_eq_some hf, by simpa using List.find?_some hf⟩
    obtain ⟨p, hp, hpi⟩ := hfound
    have hlt : i < (runOps emptyRegistry ops1).nextId := hpi ▸ hinv.1 p hp
    have hge := assignedIds_lower ops2 _ i hmem
    rw [delete_person_nextId] at hge
    omega

theorem c1_witness :
    (1 : Nat) = 1 ∧
    1 ∉ assignedIds
        (delete_person 1
          (runOps emptyRegistry [Op.create ⟨"John Doe", 30, "john@x.com"⟩])).2
        [Op.create ⟨"Jane", 28, "jane@x.com"⟩] :=
  ⟨(c1_ids_increasing_never_reused
      [Op.create ⟨"John Doe", 30, "john@x.com"⟩]).2.1 1 (by decide),
   (c1_ids_increasing_never_reused
      [Op.create ⟨"John Doe", 30, "john@x.com"⟩]).2.2 1
     [Op.create ⟨"Jane", 28, "jane@x.com"⟩] (by decide)⟩

/-! ### Inversion of a successful `update_person` -/

theorem update_person_ok {i : Nat} {d : PersonUpdate} {s : RegistryState}
    {p : Person} {s' : RegistryState}
    (h : update_person i d s = (.ok p, s')) :
    ∃ person, s.persons.find? (fun q => q.id == i) = some person ∧
      p.id = i ∧ s' = commitRow i p s := by
  simp only [update_person] at h
  cases hf : s.persons.find? (fun q => q.id == i) with
  | none =>
    simp only [hf] at h
    simp at h
  | some person =>
    simp only [hf] at h
    have hpi : person.id = i := by simpa using List.find?_some hf
    cases he : d.email with
    | none =>
      simp only [he] at h
      simp only [Prod.mk.injEq, Except.ok.injEq] at h
      obtain ⟨h1, h2⟩ := h
      refine ⟨person, rfl, ?_, ?_⟩
      · rw [← h1, applyAgeField_id, applyNameField_id, hpi]
      · rw [← h2, h1]
    | some e =>
      simp only [he] at h
      by_cases hc : (s.persons.filter fun q => q.email == e && q.id != i).isEmpty = true
      · rw [if_pos hc] at h
        simp only [Prod.mk.injEq, Except.ok.injEq] at h
        obtain ⟨h1, h2⟩ := h
        refine ⟨person, rfl, ?_, ?_⟩
        · rw [← h1]
          simp [applyAgeField_id, applyNameField_id, hpi]
        · rw [← h2, h1]
      · rw [if_neg hc] at h
        simp at h

/-- C10: after a successful create or update returning person `p`, an
immediate `get` on `p.id` succeeds and returns `p` with all fields
equal. -/
theorem c10_get_after_successful_write (s : RegistryState) (hinv : RegInv s) :
    (∀ d p s', create_person d s = (.ok p, s') → get_person p.id s' = .ok p) ∧
    (∀ i d p s', update_person i d s = (.ok p, s') →
      get_person p.id s' = .ok p) := by
  constructor
  · intro d p s' h
    obtain ⟨hp, hs', -⟩ := create_person_ok h
    subst hs'
    have hpid : p.id = s.nextId := by rw [hp]
    have h1 : s.persons.find? (fun q => q.id == p.id) = none := by
      rw [List.find?_eq_none]
      intro q hq
      have hql := hinv.1 q hq
      simp only [beq_iff_eq, hpid]
      omega
    have h2 : (s.persons ++ [p]).find? (fun q => q.id == p.id) = some p := by
      rw [List.find?_append, h1]
      simp
    simp only [get_person, h2]
  · intro i d p s' h
    obtain ⟨person, hfind, hpi, hs'⟩ := update_person_ok h
    subst hs'
    have hcomp : ((fun q : Person => q.id == p.id) ∘
        (fun q : Person => if q.id == i then p else q)) = fun q => q.id == i := by
      funext q
      by_cases hq : q.id = i
      · simp [hq, hpi]
      · simp [hq, hpi]
    have h2 : (commitRow i p s).persons.find? (fun q => q.id == p.id) = some p := by
      simp only [commitRow]
      rw [List.find?_map, hcomp, hfind]
      have hpersoni : person.id = i := by simpa using List.find?_some hfind
      simp [hpersoni]
    simp only [get_person, h2]

theorem c10_witness :
    get_person 2 (create_person ⟨"Jane", 28, "jane@x.com"⟩
        ⟨2, [⟨1, "John Doe", 30, "john@x.com"⟩]⟩).2 =
      .ok ⟨2, "Jane", 28, "jane@x.com"⟩ ∧
    get_person 1 (update_person 1 ⟨some "Johnny", some 31, none⟩
        ⟨2, [⟨1, "John Doe", 30, "john@x.com"⟩]⟩).2 =
      .ok ⟨1, "Johnny", 31, "john@x.com"⟩ := by
  have hinv : RegInv ⟨2, [⟨1, "John Doe", 30, "john@x.com"⟩]⟩ :=
    regInv_runOps regInv_empty [Op.create ⟨"John Doe", 30, "john@x.com"⟩]
  constructor
  · exact (c10_get_after_successful_write _ hinv).1
      ⟨"Jane", 28, "jane@x.com"⟩ ⟨2, "Jane", 28, "jane@x.com"⟩
      ⟨3, [⟨1, "John Doe", 30, "john@x.com"⟩, ⟨2, "Jane", 28, "jane@x.com"⟩]⟩
      (by decide)
  · exact (c10_get_after_successful_write _ hinv).2 1
      ⟨some "Johnny", some 31, none⟩ ⟨1, "Johnny", 31, "john@x.com"⟩
      ⟨2, [⟨1, "Johnny", 31, "john@x.com"⟩]⟩ (by decide)

theorem c9_witness :
    (create_person ⟨"Jane", 28, "john@x.com"⟩
        ⟨2, [⟨1, "John Doe", 30, "john@x.com"⟩]⟩).2 =
      ⟨2, [⟨1, "John Doe", 30, "john@x.com"⟩]⟩ ∧
    (update_person 9 ⟨none, none, some "new@x.com"⟩
        ⟨2, [⟨1, "John Doe", 30, "john@x.com"⟩]⟩).2 =
      ⟨2, [⟨1, "John Doe", 30, "john@x.com"⟩]⟩ ∧
    (delete_person 9 ⟨2, [⟨1, "John Doe", 30, "john@x.com"⟩]⟩).2 =
      ⟨2, [⟨1, "John Doe", 30, "john@x.com"⟩]⟩ :=
  ⟨(c9_failure_preserves_state _).1 ⟨"Jane", 28, "john@x.com"⟩
      .duplicateEmail (by decide),
   (c9_failure_preserves_state _).2.1 9 ⟨none, none, some "new@x.com"⟩
      .notFound (by decide),
   (c9_failure_preserves_state _).2.2 9 .notFound (by decide)⟩
